import Mathlib

/-!
# Verification of the suggestion-generation core of `cargo-spellcheck`

A shallow embedding of `src/checker/mod.rs` and `src/reflow/mod.rs`.

Modelling conventions:
* Rust `&str` / `String` values are embedded as `List Char`; Rust's
  `char_indices().enumerate()` character indices coincide with list indices.
  Where the source manipulates UTF-8 *byte* offsets (the end-of-input branch of
  `tokenize`), byte offsets are computed explicitly with `Char.utf8Size`.
* Rust `usize` subtraction written with `saturating_sub` maps to truncated
  `Nat` subtraction, which has the same saturating behaviour.
* Fallible Rust functions returning `Result` map to `Except`; `panic!` /
  `expect` sites are modelled by an explicit `Panic` error layer.
* Types that belong to this repository but whose sources are not part of the
  two files above (`CheckableChunk`, `CommentVariant`, `SuggestionSet`,
  `Gluon`, `ContentOrigin`, `Detector`, `Config`) are modelled from the
  natural-language specification; each such definition is marked
  `Modelled from the spec:` in its doc comment.
-/

/-- A half-open interval `[start, stop)` of offsets (Rust `core::ops::Range<usize>`).
The exclusive upper bound is named `stop` because `end` is a Lean keyword. -/
structure Range where
  start : Nat
  stop : Nat
deriving DecidableEq, Repr

/-- A 1-based line/column position in the original source file. -/
structure LineColumn where
  line : Nat
  column : Nat
deriving DecidableEq, Repr

/-- An inclusive `[start, end]` region in the original file (field `end` renamed
to `stop`, as `end` is a Lean keyword). -/
structure Span where
  start : LineColumn
  stop : LineColumn
deriving DecidableEq, Repr

/-- Modelled from the spec: the comment variants named by the specification and
the two sources — a triple-slash doc comment, the disambiguated double-slash
form, a block comment and the `#[doc = r#"…"#]` attribute form. -/
inductive CommentVariant where
  | TripleSlash
  | DoubleSlashEM
  | SlashStar
  | MacroDocEq
deriving DecidableEq, Repr

/-- Modelled from the spec: the per-line leading decoration of a comment
variant (the values follow the replacement strings exercised by the
repository's tests). -/
def CommentVariant.prefix_string : CommentVariant → List Char
  | .TripleSlash => "/// ".data
  | .DoubleSlashEM => "//! ".data
  | .SlashStar => " * ".data
  | .MacroDocEq => "#[doc=r#\"".data

/-- Modelled from the spec: the per-line trailing decoration (the closing
delimiter of the doc-attribute form; empty for the line-comment forms). -/
def CommentVariant.suffix_string : CommentVariant → List Char
  | .MacroDocEq => "\"#]".data
  | _ => []

/-- Modelled from the spec: the number of decoration characters subtracted from
the per-line indentation. -/
def CommentVariant.prefix_len (v : CommentVariant) : Nat :=
  v.prefix_string.length

/-- The punctuation blacklist of `tokenize` (`src/checker/mod.rs` line 49):
`"\";:,.?!#(){}[]-\n\r/`"`. The brace and backtick characters are spelled via
`Char.ofNat` (codes 123, 125 and 96). -/
def blacklist : List Char :=
  "\";:,.?!#()".data ++ [Char.ofNat 123, Char.ofNat 125] ++
    "[]-\n\r/".data ++ [Char.ofNat 96]

/-- `is_ignore_char` of `tokenize`: whitespace or a blacklisted character
delimits tokens. -/
def is_ignore_char (c : Char) : Bool :=
  c.isWhitespace || blacklist.contains c

/-- Total UTF-8 byte length of a character list (used to model Rust's
`char_indices`, which yields *byte* offsets). -/
def utf8Len (cs : List Char) : Nat :=
  cs.foldl (fun n c => n + c.utf8Size) 0

/-- State of the scanning loop of `tokenize`: the flag `started`, the start
index of the token in progress, and the accumulated ranges. -/
structure TokenizeState where
  started : Bool
  linear_start : Nat
  bananasplit : List Range

/-- One iteration of the `for (c_idx, (_byte_offset, c))` loop of `tokenize`. -/
def tokenizeStep (st : TokenizeState) (ic : Nat × Char) : TokenizeState :=
  let c_idx := ic.1
  let c := ic.2
  if is_ignore_char c then
    let linear_end := c_idx
    { started := false
      linear_start := st.linear_start
      bananasplit :=
        if st.started then st.bananasplit ++ [⟨st.linear_start, linear_end⟩]
        else st.bananasplit }
  else
    if !st.started then { st with linear_start := c_idx, started := true }
    else st

/-- `tokenize` (`src/checker/mod.rs` lines 42–83).  The scan enumerates
character indices; the end-of-input branch, exactly as in the source, closes
the final token using the *byte* offset of the last character (from
`s.char_indices().next_back()`) plus one. -/
def tokenize (s : List Char) : List Range :=
  let st := (s.enum).foldl tokenizeStep ⟨false, 0, []⟩
  if st.started then
    match s with
    | [] => st.bananasplit   -- `log::error!("BUG: Most likely lost a word…")`
    | _ :: _ =>
      let idx := utf8Len s.dropLast
      let linear_end := idx + 1
      st.bananasplit ++ [⟨st.linear_start, linear_end⟩]
  else
    st.bananasplit

/-- Character-based slicing `&s[range]` (chunk text is embedded as a character
list, so the flat offsets of the embedding are character indices). -/
def sliceChars (s : List Char) (r : Range) : List Char :=
  (s.drop r.start).take (r.stop - r.start)

/-- Split a character list at every `'\n'` (the separators are consumed);
always returns at least one (possibly empty) piece. -/
def splitOnNl : List Char → List (List Char)
  | [] => [[]]
  | c :: cs =>
    if c = '\n' then [] :: splitOnNl cs
    else
      match splitOnNl cs with
      | [] => [[c]]
      | l :: ls => (c :: l) :: ls

/-- Rust `str::strip_suffix`: `some` of the shortened list when `suf` is a
suffix of `l`, `none` otherwise. -/
def dropSuffix? (l suf : List Char) : Option (List Char) :=
  if suf.length ≤ l.length ∧ l.drop (l.length - suf.length) = suf then
    some (l.take (l.length - suf.length))
  else
    none

/-- Rust `str::lines`: split on `'\n'`, drop a final empty piece (a trailing
newline does not produce an empty last line) and strip one trailing `'\r'`
from every line. -/
def rustLines (cs : List Char) : List (List Char) :=
  let parts := splitOnNl cs
  let parts := if parts.getLast? = some [] then parts.dropLast else parts
  parts.map (fun l => (dropSuffix? l ['\r']).getD l)

/-- Do two half-open ranges intersect? -/
def rangeOverlaps (a b : Range) : Bool :=
  decide (a.start < b.stop) && decide (b.start < a.stop)

/-- Modelled from the spec: merging step of the reflow word source — starting
from a token that overlaps the unbreakable range `u`, keep absorbing the
following tokens while they still overlap `u`, producing one atomic unit. -/
def glueRun (u : Range) (cur : Range) : List Range → Range × List Range
  | [] => (cur, [])
  | t :: ts =>
    if rangeOverlaps t u then glueRun u ⟨cur.start, t.stop⟩ ts
    else (cur, t :: ts)

/-- Worker of `glueTokens`, structurally recursive on a fuel bounded by the
token count (`glueRun` only consumes tokens, so the fuel never runs out when
it starts at the list length). -/
def glueTokensAux (us : List Range) : Nat → List Range → List Range
  | _, [] => []
  | 0, ts => ts
  | fuel + 1, t :: ts =>
    match us.find? (fun u => rangeOverlaps t u) with
    | none => t :: glueTokensAux us fuel ts
    | some u =>
      let p := glueRun u t ts
      p.1 :: glueTokensAux us fuel p.2

/-- Modelled from the spec: "any token overlapping an unbreakable span is
merged with all tokens it overlaps into one atomic unit that is never split
across lines". -/
def glueTokens (us : List Range) (ts : List Range) : List Range :=
  glueTokensAux us ts.length ts

/-- Modelled from the spec: the greedy fill — "words are appended to the
current output line, separated by a single space, as long as
`current_line_length + 1 + next_word_length ≤ max_line_width`; otherwise the
line is closed and a new one started with that word". -/
def greedyWrap (max_line_width : Nat) : List (List Char) → List Char → List (List Char)
  | [], cur => [cur]
  | w :: ws, cur =>
    if cur.length + 1 + w.length ≤ max_line_width then
      greedyWrap max_line_width ws (cur ++ ' ' :: w)
    else
      cur :: greedyWrap max_line_width ws w

/-- Modelled from the spec: the line source `Gluon` (its module `reflow/iter.rs`
is not among the given sources).  Words are the §4.2 tokens of the paragraph
text, tokens overlapping an unbreakable range are merged into atomic units, and
lines are produced by the greedy fill.  Width accounting is character count;
the indentation argument of the original constructor is accepted but the
spec's width test does not involve it.  At least one line is always produced
(`reflow_inner` unconditionally consumes a first line). -/
def gluonLines (s : List Char) (max_line_width : Nat) (indentations : List Nat)
    (unbreakables : List Range) : List (List Char) :=
  let _ := indentations
  let toks := glueTokens unbreakables (tokenize s)
  match toks.map (fun r => sliceChars s r) with
  | [] => [[]]
  | w :: ws => greedyWrap max_line_width ws w

/-- The two `expect` sites of `reflow_inner`, reached when the indentation
slice or the produced line sequence is empty. -/
inductive Panic where
  | noIndentation   -- `.expect("Must contain one indentation")`
  | noLine          -- `.expect("Must contain one line")`
deriving DecidableEq, Repr

/-- The `gluon.fold` of `reflow_inner` (`src/reflow/mod.rs` lines 82–98),
with the three captured iterators (`lines`, `indents`) and the two captured
flags (`acc`, `reflow_applied`) made explicit.  Note the source compares with
`==` here (a produced line *equal* to the original marks the reflow as
applied), unlike the `!=` of the first-line check. -/
def reflowFold (variant : CommentVariant) (last_ident : Nat) :
    List (List Char) → List (List Char) → List Nat → List Char → Bool → List Char × Bool
  | [], _, _, acc, applied => (acc, applied)
  | content :: grest, lines, indents, acc, applied =>
    let applied := applied || decide (lines.head? = some content)
    let pre :=
      match indents.head? with
      | some i => List.replicate (i - variant.prefix_len) ' '
      | none => List.replicate last_ident ' '
    reflowFold variant last_ident grest lines.tail indents.tail
      (acc ++ pre ++ variant.prefix_string ++ content ++ variant.suffix_string ++ ['\n'])
      applied

/-- The tail of `reflow_inner` (`src/reflow/mod.rs` lines 100–117), on the
accumulated string and `reflow_applied` flag: remove the last newline
(`return None` if there is none), strip the trailing closing delimiter of
`MacroDocEq`-style comments if present, and return the replacement only when
the reflow was marked as applied. -/
def reflowFinish (variant : CommentVariant) (folded : List Char × Bool) :
    Except Panic (Option (List Char)) :=
  match dropSuffix? folded.1 ['\n'] with
  | none => .ok none
  | some c =>
    let content :=
      match dropSuffix? c variant.suffix_string with
      | some c2 => c2
      | none => c
    .ok (if folded.2 then some content else none)

/-- `reflow_inner` (`src/reflow/mod.rs` lines 50–118). -/
def reflow_inner (s : List Char) (range : Range) (unbreakable_ranges : List Range)
    (indentations : List Nat) (max_line_width : Nat) (variant : CommentVariant) :
    Except Panic (Option (List Char)) :=
  let s_absolute := sliceChars s range
  let unbreakables := unbreakable_ranges.map
    (fun r => (⟨r.start - range.start, r.stop - range.start⟩ : Range))
  let glines := gluonLines s_absolute max_line_width indentations unbreakables
  match indentations.getLast? with
  | none => .error .noIndentation
  | some li =>
    let last_ident := li - variant.prefix_len
    match glines with
    | [] => .error .noLine
    | content :: grest =>
      let lines := rustLines s_absolute
      let reflow_applied := decide (¬ lines.head? = some content)
      let acc := content ++ variant.suffix_string ++ ['\n']
      reflowFinish variant
        (reflowFold variant last_ident grest lines.tail indentations acc reflow_applied)

/-- Modelled from the spec: a file-origin identifier with a total order
(§3 requires the canonical output ordering "by origin"). -/
structure ContentOrigin where
  id : Nat
deriving DecidableEq, Repr

/-- Modelled from the spec: an immutable unit of extractable prose — its flat
text, its comment variant, and the Span-covering query over chunk-relative
Ranges (`find_covered_spans`), which is supplied by the external extraction
stage. -/
structure CheckableChunk where
  as_str : List Char
  variant : CommentVariant
  find_covered_spans : Range → List Span

/-- The checker identity tags referenced by the two sources
(`Detector::Reflow` and the three backend checkers of `checker/mod.rs`). -/
inductive Detector where
  | Hunspell
  | LanguageTool
  | NlpRules
  | Reflow
deriving DecidableEq, Repr

/-- One proposed change (struct `Suggestion` as constructed in
`store_suggestion`); the borrowed chunk is embedded by value. -/
structure Suggestion where
  chunk : CheckableChunk
  detector : Detector
  origin : ContentOrigin
  description : Option (List Char)
  range : Range
  replacements : List (List Char)
  span : Span

/-- The reflow configuration: `max_line_length`. -/
structure ReflowConfig where
  max_line_length : Nat

/-- `store_suggestion` (`src/reflow/mod.rs` lines 121–189).  The inner
`Except Nat` is the source's `Result<(Suggestion, usize), usize>`; the outer
`Except Panic` carries the `expect` sites of `reflow_inner`. -/
def store_suggestion (chunk : CheckableChunk) (origin : ContentOrigin)
    (paragraph : Nat) (ending : Nat) (unbreakable_ranges : List Range)
    (max_line_width : Nat) : Except Panic (Except Nat (Suggestion × Nat)) :=
  let range : Range := ⟨paragraph, ending⟩
  match chunk.find_covered_spans range with
  | [] => .ok (.error paragraph)
  | span_start :: spans_rest =>
    let span_end := spans_rest.getLast?.getD span_start
    let span0 : Span := ⟨span_start.start, span_end.stop⟩
    -- one-column correction for the two quirky comment variants
    let span : Span :=
      if chunk.variant = CommentVariant.TripleSlash ∨
          chunk.variant = CommentVariant.DoubleSlashEM then
        ⟨⟨span0.start.line, span0.start.column + 1⟩, span0.stop⟩
      else
        span0
    let indentations : List Nat :=
      (chunk.find_covered_spans range).flatMap
        (fun s => List.replicate (s.stop.line - s.start.line + 1) s.start.column)
    match reflow_inner chunk.as_str range unbreakable_ranges indentations
        max_line_width chunk.variant with
    | .error p => .error p
    | .ok (some replacement) =>
      .ok (.ok
        ({ chunk := chunk
           detector := Detector.Reflow
           origin := origin
           description := none
           range := range
           replacements := [replacement]
           span := span }, ending))
    | .ok none => .ok (.error ending)

/-- The markdown tags distinguished by the event loop of `reflow`; every tag
the source handles through its `_` branches is collapsed into `Other`. -/
inductive Tag where
  | Paragraph
  | Image
  | Link
  | Strong
  | Emphasis
  | Strikethrough
  | Other
deriving DecidableEq, Repr

/-- Is the tag one of the five unbreakable constructs? -/
def Tag.isUnbreakable : Tag → Bool
  | .Image | .Link | .Strong | .Emphasis | .Strikethrough => true
  | _ => false

/-- The `pulldown_cmark::Event` kinds matched by `reflow`; the payloads the
source ignores (`_s`, `_b`) are omitted. -/
inductive Event where
  | Start (tag : Tag)
  | End (tag : Tag)
  | Text
  | Code
  | Html
  | FootnoteReference
  | SoftBreak
  | HardBreak
  | Rule
  | TaskListMarker
deriving DecidableEq, Repr

/-- The loop-carried state of `reflow`: the paragraph cursor, the push-only
`unbreakable_stack`, the recorded `unbreakables` vector, and the suggestion
accumulator `acc`. -/
structure LoopState where
  paragraph : Nat
  unbreakable_stack : List Range
  unbreakables : List Range
  acc : List Suggestion

/-- The `match store_suggestion(…) { Ok((s, p)) => …, Err(p) => … }` followed
by `unbreakable_stack.clear()` that appears verbatim at the three flush sites
of the `reflow` loop (other-tag start, paragraph end, hard break). -/
def flushParagraph (chunk : CheckableChunk) (origin : ContentOrigin)
    (max_line_width : Nat) (st : LoopState) (paragraph ending : Nat) :
    Except Panic LoopState :=
  match store_suggestion chunk origin paragraph ending
      st.unbreakable_stack max_line_width with
  | .error pan => .error pan
  | .ok (.ok (s, p)) =>
    .ok { st with paragraph := p, acc := st.acc ++ [s], unbreakable_stack := [] }
  | .ok (.error p) =>
    .ok { st with paragraph := p, unbreakable_stack := [] }

/-- One iteration of the `for (event, cover)` loop of `reflow`
(`src/reflow/mod.rs` lines 205–313). -/
def reflowStep (chunk : CheckableChunk) (origin : ContentOrigin)
    (max_line_width : Nat) (st : LoopState) (ec : Event × Range) :
    Except Panic LoopState :=
  let cover := ec.2
  match ec.1 with
  | .Start tag =>
    match tag with
    | .Image | .Link | .Strong | .Emphasis | .Strikethrough =>
      .ok { st with unbreakable_stack := st.unbreakable_stack ++ [cover] }
    | .Paragraph =>
      .ok { st with paragraph := cover.start }
    | .Other =>
      -- all of these break a reflow-able chunk
      flushParagraph chunk origin max_line_width st st.paragraph st.paragraph
  | .End tag =>
    match tag with
    | .Image | .Link | .Strong | .Emphasis | .Strikethrough =>
      -- no pop: the stack length only decides whether `cover` is recorded
      if st.unbreakable_stack.length = 1 then
        .ok { st with unbreakables := st.unbreakables ++ [cover] }
      else
        .ok st
    | .Paragraph =>
      -- regular end of paragraph
      flushParagraph chunk origin max_line_width st st.paragraph cover.stop
    | .Other =>
      .ok { st with paragraph := cover.stop }
  | .HardBreak =>
    flushParagraph chunk origin max_line_width st st.paragraph cover.stop
  | _ => .ok st

/-- The `for (event, cover)` loop of `reflow`, threading the loop state
through `reflowStep` event by event. -/
def reflowLoop (chunk : CheckableChunk) (origin : ContentOrigin)
    (max_line_width : Nat) (st : LoopState) :
    List (Event × Range) → Except Panic LoopState
  | [] => .ok st
  | ec :: evs =>
    match reflowStep chunk origin max_line_width st ec with
    | .error pan => .error pan
    | .ok st' => reflowLoop chunk origin max_line_width st' evs

/-- `reflow` (`src/reflow/mod.rs` lines 192–316).  The commonmark parser is an
external collaborator: its output — the offset-annotated event stream over
`chunk.as_str()` — is taken as the argument `events`. -/
def reflow (origin : ContentOrigin) (chunk : CheckableChunk) (cfg : ReflowConfig)
    (events : List (Event × Range)) : Except Panic (List Suggestion) :=
  match reflowLoop chunk origin cfg.max_line_length ⟨0, [], [], []⟩ events with
  | .error pan => .error pan
  | .ok st => .ok st.acc

/-- Modelled from the spec: a document is a mapping from file-origin to its
ordered chunks (`Documentation` of the repository, specified in §6). -/
structure Documentation where
  entries : List (ContentOrigin × List CheckableChunk)

/-- Modelled from the spec: an ordered, origin-keyed collection of suggestions
(`SuggestionSet`, backed by an insertion-ordered map in the repository). -/
structure SuggestionSet where
  entries : List (ContentOrigin × List Suggestion)

/-- `SuggestionSet::new()`. -/
def SuggestionSet.new : SuggestionSet := ⟨[]⟩

/-- Insert one origin's suggestions into an insertion-ordered association
list: extend the existing entry, or append a new one. -/
def joinEntry (entries : List (ContentOrigin × List Suggestion))
    (p : ContentOrigin × List Suggestion) :
    List (ContentOrigin × List Suggestion) :=
  match entries with
  | [] => [p]
  | q :: rest =>
    if q.1 = p.1 then (q.1, q.2 ++ p.2) :: rest
    else q :: joinEntry rest p

/-- Modelled from the spec: `SuggestionSet::join` — an origin-wise merge that
retains duplicates ("deduplication is intentionally checker-agnostic"). -/
def SuggestionSet.join (a b : SuggestionSet) : SuggestionSet :=
  ⟨b.entries.foldl joinEntry a.entries⟩

/-- Canonical origin order: by the origin identifier. -/
def originLe (a b : ContentOrigin) : Prop := a.id ≤ b.id

/-- Canonical position order on 1-based line/column pairs: by line, then by
column. -/
def lineColLe (a b : LineColumn) : Prop :=
  a.line < b.line ∨ (a.line = b.line ∧ a.column ≤ b.column)

/-- Canonical suggestion order: by the Span's start position. -/
def suggestionLe (a b : Suggestion) : Prop := lineColLe a.span.start b.span.start

/-- Canonical order of the origin-keyed entries: by origin. -/
def entryLe (a b : ContentOrigin × List Suggestion) : Prop := originLe a.1 b.1

instance : DecidableRel originLe :=
  fun a b => inferInstanceAs (Decidable (a.id ≤ b.id))

instance : DecidableRel lineColLe :=
  fun a b =>
    inferInstanceAs (Decidable (a.line < b.line ∨ (a.line = b.line ∧ a.column ≤ b.column)))

instance : DecidableRel suggestionLe :=
  fun a b => inferInstanceAs (Decidable (lineColLe a.span.start b.span.start))

instance : DecidableRel entryLe :=
  fun a b => inferInstanceAs (Decidable (originLe a.1 b.1))

instance : IsTotal ContentOrigin originLe :=
  ⟨fun a b => Nat.le_total a.id b.id⟩

instance : IsTrans ContentOrigin originLe :=
  ⟨fun _ _ _ h h' => Nat.le_trans h h'⟩

instance : IsTotal LineColumn lineColLe :=
  ⟨fun a b => by unfold lineColLe; omega⟩

instance : IsTrans LineColumn lineColLe :=
  ⟨fun a b c h h' => by unfold lineColLe at *; omega⟩

instance : IsTotal Suggestion suggestionLe :=
  ⟨fun a b => IsTotal.total (r := lineColLe) a.span.start b.span.start⟩

instance : IsTrans Suggestion suggestionLe :=
  ⟨fun _ _ _ h h' => Trans.trans (r := lineColLe) (s := lineColLe) h h'⟩

instance : IsTotal (ContentOrigin × List Suggestion) entryLe :=
  ⟨fun a b => IsTotal.total (r := originLe) a.1 b.1⟩

instance : IsTrans (ContentOrigin × List Suggestion) entryLe :=
  ⟨fun _ _ _ h h' => Trans.trans (r := originLe) (s := originLe) h h'⟩

/-- Modelled from the spec: `SuggestionSet::sort` — the deterministic canonical
ordering of §3, "by origin, then by Span start". -/
def SuggestionSet.sort (s : SuggestionSet) : SuggestionSet :=
  ⟨List.insertionSort entryLe
    (s.entries.map (fun p => (p.1, List.insertionSort suggestionLe p.2)))⟩

/-- Checker failure (`anyhow::Error`), represented by its message. -/
abbrev CheckError := List Char

/-- The top-level configuration as dispatch sees it: only the
`is_enabled(detector)` predicate is consulted. -/
structure Config where
  is_enabled : Detector → Bool

/-- Modelled from the spec: one checker registered with dispatch — whether its
cargo feature is compiled in (`cfg!(feature = …)`), its `detector()` identity,
and its `check` entry point over a whole document (its private backend
configuration is already applied; the backends themselves are external
collaborators, §6). -/
structure CheckerEntry where
  compiled : Bool
  detector : Detector
  run : Documentation → Except CheckError SuggestionSet

/-- `invoke_checker_inner` (`src/checker/mod.rs` lines 85–101): run the
checker's `check`, propagating its failure, and join the result into the
running collective. -/
def invoke_checker_inner (run : Documentation → Except CheckError SuggestionSet)
    (documentation : Documentation) (collective : SuggestionSet) :
    Except CheckError SuggestionSet :=
  match run documentation with
  | .error e => .error e   -- the `?` on `T::check(…)`
  | .ok suggestions => .ok (collective.join suggestions)

/-- The `invoke_checker!` macro (`src/checker/mod.rs` lines 103–121): skip a
checker compiled out of the build, skip a checker disabled by configuration,
otherwise invoke it. -/
def invoke_checker (entry : CheckerEntry) (documentation : Documentation)
    (config : Config) (collective : SuggestionSet) :
    Except CheckError SuggestionSet :=
  if !entry.compiled then
    .ok collective  -- "Feature … is disabled by compilation."
  else if config.is_enabled entry.detector then
    invoke_checker_inner entry.run documentation collective
  else
    .ok collective  -- "Checker … is disabled by configuration."

/-- The sequence of `invoke_checker!` call sites of `check`: each checker is
invoked in turn against the running collective; a failure (the `?` inside the
macro) aborts the remaining invocations. -/
def checkFold (documentation : Documentation) (config : Config) :
    List CheckerEntry → SuggestionSet → Except CheckError SuggestionSet
  | [], collective => .ok collective
  | entry :: rest, collective =>
    match invoke_checker entry documentation config collective with
    | .error e => .error e
    | .ok collective' => checkFold documentation config rest collective'

/-- Dispatch `check` (`src/checker/mod.rs` lines 124–160): run all registered
checkers over one running collective, then sort once and return.  The three
macro call sites of the source are generalized to the checker list
`checkers`. -/
def check (checkers : List CheckerEntry) (documentation : Documentation)
    (config : Config) : Except CheckError SuggestionSet :=
  match checkFold documentation config checkers SuggestionSet.new with
  | .error e => .error e
  | .ok collective => .ok collective.sort

/-- Fixture: a chunk whose covered-span query yields two spans and whose
variant is one of the two corrected ones. -/
def chunkQ : CheckableChunk :=
  { as_str := "aa bb cc dd".data
    variant := CommentVariant.TripleSlash
    find_covered_spans := fun _ => [⟨⟨1, 4⟩, ⟨1, 9⟩⟩, ⟨⟨2, 4⟩, ⟨2, 9⟩⟩] }

/-- Fixture origin. -/
def origin0 : ContentOrigin := ⟨0⟩

/-- Fixture: the suggestion `store_suggestion` produces for `chunkQ` at width
5 over the whole chunk text. -/
def suggQ : Suggestion :=
  { chunk := chunkQ
    detector := Detector.Reflow
    origin := origin0
    description := none
    range := ⟨0, 11⟩
    replacements := ["aa bb\n/// cc dd".data]
    span := ⟨⟨1, 5⟩, ⟨2, 9⟩⟩ }

/-- Fixture: a chunk whose covered-span query never yields a span. -/
def chunkE : CheckableChunk :=
  { as_str := "ab".data
    variant := CommentVariant.TripleSlash
    find_covered_spans := fun _ => [] }

/-- Fixture: an empty document (the dispatch behaviour under scrutiny does not
depend on the document's contents). -/
def doc0 : Documentation := ⟨[]⟩

/-- Fixture: a configuration with every detector enabled. -/
def configAll : Config := ⟨fun _ => true⟩

/-- Fixture: an enabled checker that succeeds with an empty set. -/
def okChecker : CheckerEntry := ⟨true, Detector.Hunspell, fun _ => .ok ⟨[]⟩⟩

/-- Fixture: an enabled checker that fails. -/
def errChecker : CheckerEntry :=
  ⟨true, Detector.LanguageTool, fun _ => .error "boom".data⟩

/-- Fixture: a configuration enabling only the Hunspell detector. -/
def configHun : Config := ⟨fun d => decide (d = Detector.Hunspell)⟩

/-- Fixture: a disabled checker that would fail if it were ever invoked. -/
def disChecker : CheckerEntry :=
  ⟨true, Detector.NlpRules, fun _ => .error "never".data⟩

/-- Fixture suggestions for the sorting witness (origins and span starts out
of canonical order). -/
def sugX : Suggestion :=
  ⟨chunkE, Detector.Hunspell, ⟨2⟩, none, ⟨0, 1⟩, [], ⟨⟨3, 1⟩, ⟨3, 2⟩⟩⟩

/-- Second fixture suggestion. -/
def sugY : Suggestion :=
  ⟨chunkE, Detector.Hunspell, ⟨1⟩, none, ⟨0, 1⟩, [], ⟨⟨2, 5⟩, ⟨2, 6⟩⟩⟩

/-- Third fixture suggestion. -/
def sugZ : Suggestion :=
  ⟨chunkE, Detector.Hunspell, ⟨1⟩, none, ⟨0, 1⟩, [], ⟨⟨1, 7⟩, ⟨1, 8⟩⟩⟩

/-- Fixture: a checker returning an out-of-order suggestion set. -/
def unsortedChecker : CheckerEntry :=
  ⟨true, Detector.Hunspell, fun _ => .ok ⟨[(⟨2⟩, [sugX]), (⟨1⟩, [sugY, sugZ])]⟩⟩

/-- The canonical reordering of `unsortedChecker`'s output. -/
def sortedSet : SuggestionSet := ⟨[(⟨1⟩, [sugZ, sugY]), (⟨2⟩, [sugX])]⟩

/-- Is the event an inline unbreakable start/end (the only events a paragraph's
emphasis/strong/strikethrough/link/image content produces)? -/
def isInlineUnbreakable (ec : Event × Range) : Bool :=
  match ec.1 with
  | .Start t => t.isUnbreakable
  | .End t => t.isUnbreakable
  | _ => false

/-- The cover pushed by an unbreakable start event, if any. -/
def startCover (ec : Event × Range) : Option Range :=
  match ec.1 with
  | .Start t => if t.isUnbreakable then some ec.2 else none
  | _ => none

/-- The loop-state components that determine the produced suggestions: the
paragraph cursor, the `unbreakable_stack` (which is what every
`store_suggestion` call receives), and the accumulator.  The recorded
`unbreakables` vector is deliberately *not* a component. -/
def loopProj (st : LoopState) : Nat × List Range × List Suggestion :=
  (st.paragraph, st.unbreakable_stack, st.acc)

/-- Fixture inline event stream for the C6 witness: two sequential top-level
constructs. -/
def evsW : List (Event × Range) :=
  [(.Start .Strong, ⟨0, 4⟩), (.End .Strong, ⟨0, 4⟩),
   (.Start .Emphasis, ⟨6, 10⟩), (.End .Emphasis, ⟨6, 10⟩)]

/-- Join lines with single newline separators (no trailing terminator). -/
def joinNl : List (List Char) → List Char
  | [] => []
  | [l] => l
  | l :: ls => l ++ '\n' :: joinNl ls

/-- C7's claimed decoration of the output lines after the first, stated in
the claim's own terms: each line is `(indentation[i] − prefix length, clamped
at zero)` spaces, then the variant's prefix, the content, and the variant's
suffix, reusing the last available indentation once the list is exhausted. -/
def decorateRest (variant : CommentVariant) (lastInd : Nat) :
    List Nat → List (List Char) → List (List Char)
  | _, [] => []
  | indents, l :: ls =>
    (List.replicate ((indents.head?.getD lastInd) - variant.prefix_len) ' ' ++
      variant.prefix_string ++ l ++ variant.suffix_string) ::
      decorateRest variant lastInd indents.tail ls

/-- C7's claimed assembly, stated independently of `reflow_inner`: the first
produced line undecorated except for the appended suffix, the subsequent lines
decorated by `decorateRest`, everything joined with line terminators (with the
trailing one stripped, which `joinNl` captures), and the variant's closing
suffix stripped from the very end when it terminates the string. -/
def assembleSpec (glines : List (List Char)) (indentations : List Nat)
    (variant : CommentVariant) : List Char :=
  match glines with
  | [] => []
  | l0 :: rest =>
    let joined := joinNl ((l0 ++ variant.suffix_string) ::
      decorateRest variant (indentations.getLast?.getD 0) indentations rest)
    (dropSuffix? joined variant.suffix_string).getD joined

/-- The string contribution of the `gluon.fold`, isolated from the threaded
iterators and flags. -/
def blobAux (v : CommentVariant) (L : Nat) : List (List Char) → List Nat → List Char
  | [], _ => []
  | l :: ls, indents =>
    (match indents.head? with
      | some i => List.replicate (i - v.prefix_len) ' '
      | none => List.replicate L ' ') ++
      v.prefix_string ++ l ++ v.suffix_string ++ '\n' :: blobAux v L ls indents.tail

/-! ## Theorems -/

theorem glueRun_snd_length (u : Range) (cur : Range) (ts : List Range) :
    (glueRun u cur ts).2.length ≤ ts.length := by
  induction ts generalizing cur with
  | nil => simp [glueRun]
  | cons t ts ih =>
    by_cases h : rangeOverlaps t u
    · simpa [glueRun, h] using Nat.le_succ_of_le (ih _)
    · simp [glueRun, h]

/-! ## Helper lemmas -/

theorem greedyWrap_ne_nil (maxw : Nat) (ws : List (List Char)) (cur : List Char) :
    greedyWrap maxw ws cur ≠ [] := by
  induction ws generalizing cur with
  | nil => simp [greedyWrap]
  | cons w ws ih =>
    by_cases h : cur.length + 1 + w.length ≤ maxw <;>
      simp [greedyWrap, h, ih]

theorem gluonLines_ne_nil (s : List Char) (maxw : Nat) (inds : List Nat)
    (us : List Range) : gluonLines s maxw inds us ≠ [] := by
  cases h : (glueTokens us (tokenize s)).map (fun r => sliceChars s r) with
  | nil => simp [gluonLines, h]
  | cons w ws =>
    simp only [gluonLines, h]
    exact greedyWrap_ne_nil maxw ws w

theorem reflowFinish_ok (variant : CommentVariant) (folded : List Char × Bool) :
    ∃ o, reflowFinish variant folded = .ok o := by
  unfold reflowFinish
  cases dropSuffix? folded.1 ['\n'] with
  | none => exact ⟨none, rfl⟩
  | some c => exact ⟨_, rfl⟩

theorem reflow_inner_ok (s : List Char) (range : Range) (ub : List Range)
    (indentations : List Nat) (maxw : Nat) (variant : CommentVariant)
    (h : indentations ≠ []) :
    ∃ o, reflow_inner s range ub indentations maxw variant = .ok o := by
  cases hl : indentations.getLast? with
  | none => exact absurd (List.getLast?_eq_none_iff.mp hl) h
  | some li =>
    cases hg : gluonLines (sliceChars s range) maxw indentations
        (ub.map fun r => (⟨r.start - range.start, r.stop - range.start⟩ : Range)) with
    | nil =>
      exact absurd hg (gluonLines_ne_nil _ _ _ _)
    | cons content grest =>
      obtain ⟨o, ho⟩ := reflowFinish_ok variant
        (reflowFold variant (li - variant.prefix_len) grest
          (rustLines (sliceChars s range)).tail indentations
          (content ++ variant.suffix_string ++ ['\n'])
          (decide (¬(rustLines (sliceChars s range)).head? = some content)))
      exact ⟨o, by simp only [reflow_inner, hl, hg]; exact ho⟩

theorem dropSuffix?_append (a b : List Char) : dropSuffix? (a ++ b) b = some a := by
  have hlen : (a ++ b).length - b.length = a.length := by
    simp [List.length_append]
  simp [dropSuffix?, hlen, List.drop_left, List.take_left, List.length_append]

theorem getLast?_cons_eq {α : Type} (a : α) (l : List α) :
    (a :: l).getLast? = some (l.getLast?.getD a) := by
  induction l generalizing a with
  | nil => rfl
  | cons b l ih => rw [List.getLast?_cons_cons, ih b]; rfl

/-- C2: refuting evaluation.  The claim states that all ranges yielded by
`tokenize` are character indices and stay within the character bounds of the
input.  On the two-character input `"éa"` the scan ends inside a token and the
source closes it with `s.char_indices().next_back()`'s *byte* offset plus one:
`'é'` occupies two UTF-8 bytes, so the final (and only) token is `0..3` —
exceeding the 2-character bounds — instead of the claimed `0..2`.  This
contradicts the function's own documentation ("All ranges are in
characters."). -/
theorem tokenize_final_token_uses_byte_offset :
    tokenize "éa".data = [⟨0, 3⟩] ∧ ("éa".data).length = 2 := by
  exact ⟨by decide, by decide⟩

/-- C1: refuting evaluation.  The paragraph `"aa bb\ncc dd"` is already
correctly wrapped for width 5: the greedy reflow reproduces exactly the two
original lines (second conjunct).  The claim requires `reflow_inner` to return
`none` here, but it returns the reconstructed replacement: the first-line
check marks `reflow_applied` when the produced line *differs* (`!=`) from the
original, while the fold marks it when a subsequent produced line *equals*
(`==`) the original — so an unchanged multi-line paragraph is reported as
reflowed, contradicting the function's own documentation ("Returns the
`Some(replacement)` string if a reflow has been performed and `None`
otherwise") and the spec's no-churn law. -/
theorem reflow_inner_churn_on_wrapped_paragraph :
    reflow_inner "aa bb\ncc dd".data ⟨0, 11⟩ [] [0, 0] 5 CommentVariant.TripleSlash =
      .ok (some "aa bb\n/// cc dd".data) ∧
    gluonLines (sliceChars "aa bb\ncc dd".data ⟨0, 11⟩) 5 [0, 0] [] =
      rustLines (sliceChars "aa bb\ncc dd".data ⟨0, 11⟩) := by
  exact ⟨by rfl, by rfl⟩

/-- C10: `store_suggestion` never reaches a panic branch of `reflow_inner`.
Whenever at least one covered span exists, the indentation vector receives at
least one entry per covered span (`replicate (end.line - start.line + 1)` is
never empty), so the `"Must contain one indentation"` `expect` cannot fire; if
no covered span exists `reflow_inner` is never called.  (Under the modelled
line source, which always yields at least one line, the `"Must contain one
line"` `expect` is likewise unreachable, so the result is always `.ok`.) -/
theorem store_suggestion_never_panics (chunk : CheckableChunk)
    (origin : ContentOrigin) (paragraph ending : Nat) (ub : List Range)
    (max_line_width : Nat) :
    ∃ r, store_suggestion chunk origin paragraph ending ub max_line_width = .ok r := by
  cases hcov : chunk.find_covered_spans ⟨paragraph, ending⟩ with
  | nil => exact ⟨.error paragraph, by simp [store_suggestion, hcov]⟩
  | cons span_start spans_rest =>
    have hne : ((span_start :: spans_rest).flatMap
        (fun s => List.replicate (s.stop.line - s.start.line + 1) s.start.column)) ≠ [] := by
      simp only [List.flatMap_cons]
      intro hcontra
      rcases List.append_eq_nil.mp hcontra with ⟨h1, _⟩
      have := congrArg List.length h1
      simp at this
    obtain ⟨o, ho⟩ := reflow_inner_ok chunk.as_str ⟨paragraph, ending⟩ ub
      ((span_start :: spans_rest).flatMap
        (fun s => List.replicate (s.stop.line - s.start.line + 1) s.start.column))
      max_line_width chunk.variant hne
    simp only [store_suggestion, hcov, ho]
    cases o with
    | none => exact ⟨.error ending, rfl⟩
    | some replacement => exact ⟨_, rfl⟩

/-- C3: the suggestion's span runs from the first covered span's start to the
last covered span's end; `start.column` is incremented by exactly one iff the
chunk's comment variant is `TripleSlash` or `DoubleSlashEM`, and the remaining
resolved fields are taken unmodified from the covered spans. -/
theorem store_suggestion_span_resolution (chunk : CheckableChunk)
    (origin : ContentOrigin) (paragraph ending : Nat) (ub : List Range) (w : Nat)
    (first : Span) (rest : List Span) (lastSpan : Span) (sugg : Suggestion) (p' : Nat)
    (hcov : chunk.find_covered_spans ⟨paragraph, ending⟩ = first :: rest)
    (hlast : (first :: rest).getLast? = some lastSpan)
    (hok : store_suggestion chunk origin paragraph ending ub w = .ok (.ok (sugg, p'))) :
    sugg.span.stop = lastSpan.stop ∧
    sugg.span.start.line = first.start.line ∧
    sugg.span.start.column = first.start.column +
      (if chunk.variant = CommentVariant.TripleSlash ∨
          chunk.variant = CommentVariant.DoubleSlashEM then 1 else 0) := by
  have hlast' : rest.getLast?.getD first = lastSpan := by
    rw [getLast?_cons_eq] at hlast
    exact Option.some.inj hlast
  simp only [store_suggestion, hcov] at hok
  split at hok
  · exact absurd hok (by simp)
  · rename_i replacement hri
    simp only [Except.ok.injEq, Prod.mk.injEq] at hok
    obtain ⟨hsugg, -⟩ := hok
    subst hsugg
    by_cases hvar : chunk.variant = CommentVariant.TripleSlash ∨
        chunk.variant = CommentVariant.DoubleSlashEM
    · simp [hvar, hlast']
    · simp [hvar, hlast']
  · exact absurd hok (by simp)

/-- C3 witness: the theorem applied at `chunkQ`, all hypotheses discharged by
evaluation. -/
theorem store_suggestion_span_resolution_witness :
    chunkQ.find_covered_spans ⟨0, 11⟩ = [⟨⟨1, 4⟩, ⟨1, 9⟩⟩, ⟨⟨2, 4⟩, ⟨2, 9⟩⟩] ∧
    store_suggestion chunkQ origin0 0 11 [] 5 = .ok (.ok (suggQ, 11)) ∧
    (suggQ.span.stop = (⟨⟨2, 4⟩, ⟨2, 9⟩⟩ : Span).stop ∧
      suggQ.span.start.line = (⟨⟨1, 4⟩, ⟨1, 9⟩⟩ : Span).start.line ∧
      suggQ.span.start.column = (⟨⟨1, 4⟩, ⟨1, 9⟩⟩ : Span).start.column +
        (if chunkQ.variant = CommentVariant.TripleSlash ∨
            chunkQ.variant = CommentVariant.DoubleSlashEM then 1 else 0)) :=
  ⟨rfl, rfl,
    store_suggestion_span_resolution chunkQ origin0 0 11 [] 5
      ⟨⟨1, 4⟩, ⟨1, 9⟩⟩ [⟨⟨2, 4⟩, ⟨2, 9⟩⟩] ⟨⟨2, 4⟩, ⟨2, 9⟩⟩ suggQ 11 rfl rfl rfl⟩

/-- A paragraph range with no covered span makes `store_suggestion` return
`Err(paragraph)` without touching `reflow_inner`. -/
theorem store_suggestion_no_covered (chunk : CheckableChunk)
    (origin : ContentOrigin) (paragraph ending : Nat) (ub : List Range) (w : Nat)
    (h : chunk.find_covered_spans ⟨paragraph, ending⟩ = []) :
    store_suggestion chunk origin paragraph ending ub w = .ok (.error paragraph) := by
  simp [store_suggestion, h]

/-- For a chunk whose covered-span query never yields a span, every event is
processed without panic and without accumulating a suggestion. -/
theorem reflowStep_no_covered (chunk : CheckableChunk)
    (hall : ∀ r, chunk.find_covered_spans r = []) (origin : ContentOrigin)
    (w : Nat) (st : LoopState) (e : Event) (cover : Range) :
    ∃ st₁, reflowStep chunk origin w st (e, cover) = .ok st₁ ∧ st₁.acc = st.acc := by
  have hs : ∀ p q, store_suggestion chunk origin p q st.unbreakable_stack w =
      .ok (.error p) :=
    fun p q => store_suggestion_no_covered chunk origin p q _ w (hall _)
  cases e with
  | Start tag =>
    cases tag with
    | Image => exact ⟨_, rfl, rfl⟩
    | Link => exact ⟨_, rfl, rfl⟩
    | Strong => exact ⟨_, rfl, rfl⟩
    | Emphasis => exact ⟨_, rfl, rfl⟩
    | Strikethrough => exact ⟨_, rfl, rfl⟩
    | Paragraph => exact ⟨_, rfl, rfl⟩
    | Other =>
      refine ⟨{ st with paragraph := st.paragraph, unbreakable_stack := [] }, ?_, rfl⟩
      simp [reflowStep, flushParagraph, hs]
  | End tag =>
    cases tag with
    | Image =>
      by_cases h1 : st.unbreakable_stack.length = 1
      · exact ⟨{ st with unbreakables := st.unbreakables ++ [cover] },
          by simp [reflowStep, h1], rfl⟩
      · exact ⟨st, by simp [reflowStep, h1], rfl⟩
    | Link =>
      by_cases h1 : st.unbreakable_stack.length = 1
      · exact ⟨{ st with unbreakables := st.unbreakables ++ [cover] },
          by simp [reflowStep, h1], rfl⟩
      · exact ⟨st, by simp [reflowStep, h1], rfl⟩
    | Strong =>
      by_cases h1 : st.unbreakable_stack.length = 1
      · exact ⟨{ st with unbreakables := st.unbreakables ++ [cover] },
          by simp [reflowStep, h1], rfl⟩
      · exact ⟨st, by simp [reflowStep, h1], rfl⟩
    | Emphasis =>
      by_cases h1 : st.unbreakable_stack.length = 1
      · exact ⟨{ st with unbreakables := st.unbreakables ++ [cover] },
          by simp [reflowStep, h1], rfl⟩
      · exact ⟨st, by simp [reflowStep, h1], rfl⟩
    | Strikethrough =>
      by_cases h1 : st.unbreakable_stack.length = 1
      · exact ⟨{ st with unbreakables := st.unbreakables ++ [cover] },
          by simp [reflowStep, h1], rfl⟩
      · exact ⟨st, by simp [reflowStep, h1], rfl⟩
    | Paragraph =>
      refine ⟨{ st with paragraph := st.paragraph, unbreakable_stack := [] }, ?_, rfl⟩
      simp [reflowStep, flushParagraph, hs]
    | Other => exact ⟨_, rfl, rfl⟩
  | HardBreak =>
    refine ⟨{ st with paragraph := st.paragraph, unbreakable_stack := [] }, ?_, rfl⟩
    simp [reflowStep, flushParagraph, hs]
  | Text => exact ⟨st, rfl, rfl⟩
  | Code => exact ⟨st, rfl, rfl⟩
  | Html => exact ⟨st, rfl, rfl⟩
  | FootnoteReference => exact ⟨st, rfl, rfl⟩
  | SoftBreak => exact ⟨st, rfl, rfl⟩
  | Rule => exact ⟨st, rfl, rfl⟩
  | TaskListMarker => exact ⟨st, rfl, rfl⟩

/-- The event loop over a chunk with no covered spans succeeds and leaves the
suggestion accumulator untouched. -/
theorem reflowLoop_no_covered (chunk : CheckableChunk)
    (hall : ∀ r, chunk.find_covered_spans r = []) (origin : ContentOrigin)
    (w : Nat) (evs : List (Event × Range)) :
    ∀ st, ∃ st', reflowLoop chunk origin w st evs = .ok st' ∧ st'.acc = st.acc := by
  induction evs with
  | nil => exact fun st => ⟨st, rfl, rfl⟩
  | cons ev evs ih =>
    intro st
    obtain ⟨e, cover⟩ := ev
    obtain ⟨st₁, hstep, hacc₁⟩ := reflowStep_no_covered chunk hall origin w st e cover
    obtain ⟨st', hloop, hacc'⟩ := ih st₁
    refine ⟨st', ?_, hacc'.trans hacc₁⟩
    simp only [reflowLoop, hstep, hloop]

/-- C4: a mapping failure is a per-paragraph skip.  If the chunk's
covered-span query yields no span, `store_suggestion` returns `Err` with the
paragraph cursor, and the chunk's reflow processes every event and returns
successfully with no suggestion — never a checker-level error. -/
theorem mapping_failure_is_per_paragraph_skip (chunk : CheckableChunk)
    (origin : ContentOrigin) (paragraph ending : Nat) (ub : List Range) (w : Nat)
    (cfg : ReflowConfig) (events : List (Event × Range))
    (hall : ∀ r, chunk.find_covered_spans r = []) :
    store_suggestion chunk origin paragraph ending ub w = .ok (.error paragraph) ∧
    reflow origin chunk cfg events = .ok [] := by
  refine ⟨store_suggestion_no_covered chunk origin paragraph ending ub w (hall _), ?_⟩
  obtain ⟨st', hloop, hacc⟩ :=
    reflowLoop_no_covered chunk hall origin cfg.max_line_length events ⟨0, [], [], []⟩
  simp only [reflow, hloop, hacc]

/-- C4 witness: the theorem applied at `chunkE` over a small event stream. -/
theorem mapping_failure_is_per_paragraph_skip_witness :
    store_suggestion chunkE origin0 0 2 [] 80 = .ok (.error 0) ∧
    reflow origin0 chunkE ⟨80⟩
      [(.Start .Paragraph, ⟨0, 2⟩), (.End .Paragraph, ⟨0, 2⟩)] = .ok [] :=
  mapping_failure_is_per_paragraph_skip chunkE origin0 0 2 [] 80 ⟨80⟩
    [(.Start .Paragraph, ⟨0, 2⟩), (.End .Paragraph, ⟨0, 2⟩)] (fun _ => rfl)

/-- Folding the checker sequence aborts with the first failing enabled
checker's error, for any running collective. -/
theorem checkFold_error (documentation : Documentation) (config : Config)
    (failing : CheckerEntry) (post : List CheckerEntry) (e : CheckError)
    (hc : failing.compiled = true)
    (he : config.is_enabled failing.detector = true)
    (hfail : failing.run documentation = .error e) :
    ∀ pre : List CheckerEntry,
      (∀ c ∈ pre, c.compiled = true → config.is_enabled c.detector = true →
        ∃ s, c.run documentation = .ok s) →
      ∀ coll, checkFold documentation config (pre ++ failing :: post) coll = .error e := by
  intro pre
  induction pre with
  | nil =>
    intro _ coll
    have hinv : invoke_checker failing documentation config coll = .error e := by
      simp [invoke_checker, hc, he, invoke_checker_inner, hfail]
    simp only [List.nil_append, checkFold, hinv]
  | cons c pre ih =>
    intro hpre coll
    simp only [List.cons_append, checkFold]
    by_cases hcc : c.compiled
    · by_cases hen : config.is_enabled c.detector
      · obtain ⟨s, hs⟩ := hpre c (by simp) hcc hen
        have hinv : invoke_checker c documentation config coll = .ok (coll.join s) := by
          simp [invoke_checker, hcc, hen, invoke_checker_inner, hs]
        rw [hinv]
        exact ih (fun c' hc' => hpre c' (by simp [hc'])) _
      · have hinv : invoke_checker c documentation config coll = .ok coll := by
          simp [invoke_checker, hcc, hen]
        rw [hinv]
        exact ih (fun c' hc' => hpre c' (by simp [hc'])) _
    · have hinv : invoke_checker c documentation config coll = .ok coll := by
        simp [invoke_checker, hcc]
      rw [hinv]
      exact ih (fun c' hc' => hpre c' (by simp [hc'])) _

/-- C5: if an enabled (and compiled-in) checker's `check` fails while every
enabled checker before it succeeded, the dispatch `check` returns exactly that
error — no suggestion set, and the already-joined results are discarded with
the failure. -/
theorem check_aborts_on_backend_failure (pre : List CheckerEntry)
    (failing : CheckerEntry) (post : List CheckerEntry)
    (documentation : Documentation) (config : Config) (e : CheckError)
    (hc : failing.compiled = true)
    (he : config.is_enabled failing.detector = true)
    (hpre : ∀ c ∈ pre, c.compiled = true → config.is_enabled c.detector = true →
      ∃ s, c.run documentation = .ok s)
    (hfail : failing.run documentation = .error e) :
    check (pre ++ failing :: post) documentation config = .error e := by
  have hf := checkFold_error documentation config failing post e hc he hfail pre hpre
    SuggestionSet.new
  simp only [check, hf]

/-- C5 witness: with a succeeding checker followed by a failing one, dispatch
returns the failure. -/
theorem check_aborts_on_backend_failure_witness :
    check [okChecker, errChecker] doc0 configAll = .error "boom".data := by
  apply check_aborts_on_backend_failure [okChecker] errChecker [] doc0 configAll
    "boom".data rfl rfl ?_ rfl
  intro c hmem _ _
  rw [List.mem_singleton] at hmem
  subst hmem
  exact ⟨⟨[]⟩, rfl⟩

/-- A checker that is compiled out or disabled by configuration leaves the
running collective untouched. -/
theorem invoke_checker_skip (entry : CheckerEntry) (documentation : Documentation)
    (config : Config)
    (hdis : entry.compiled = false ∨ config.is_enabled entry.detector = false) :
    ∀ coll, invoke_checker entry documentation config coll = .ok coll := by
  intro coll
  rcases hdis with h | h
  · simp [invoke_checker, h]
  · by_cases hc : entry.compiled <;> simp [invoke_checker, h, hc]

/-- Removing a disabled checker from the sequence does not change the fold. -/
theorem checkFold_skip (documentation : Documentation) (config : Config)
    (entry : CheckerEntry) (post : List CheckerEntry)
    (hdis : entry.compiled = false ∨ config.is_enabled entry.detector = false) :
    ∀ (pre : List CheckerEntry) (coll : SuggestionSet),
      checkFold documentation config (pre ++ entry :: post) coll =
        checkFold documentation config (pre ++ post) coll := by
  intro pre
  induction pre with
  | nil =>
    intro coll
    simp only [List.nil_append, checkFold,
      invoke_checker_skip entry documentation config hdis coll]
  | cons c pre ih =>
    intro coll
    simp only [List.cons_append, checkFold]
    cases invoke_checker c documentation config coll with
    | error e => rfl
    | ok coll' => exact ih coll'

/-- C8: a checker whose feature is not compiled in, or whose detector the
top-level configuration disables, is never invoked: dispatch over a checker
sequence containing it returns exactly what dispatch over the sequence without
it returns — its suggestions never appear and the skip never fails the
pass. -/
theorem check_skips_disabled_checker (pre post : List CheckerEntry)
    (entry : CheckerEntry) (documentation : Documentation) (config : Config)
    (hdis : entry.compiled = false ∨ config.is_enabled entry.detector = false) :
    check (pre ++ entry :: post) documentation config =
      check (pre ++ post) documentation config := by
  unfold check
  rw [checkFold_skip documentation config entry post hdis pre SuggestionSet.new]

/-- C8 witness: inserting the disabled (would-fail) checker changes nothing —
in particular the pass does not fail and no suggestion of it appears. -/
theorem check_skips_disabled_checker_witness :
    check [okChecker, disChecker] doc0 configHun = check [okChecker] doc0 configHun :=
  check_skips_disabled_checker [okChecker] [] disChecker doc0 configHun (Or.inr rfl)

/-- C9: a successful dispatch returns the collective sorted into canonical
order — entries by origin, suggestions by Span start — and, the embedding
being a pure function, re-running dispatch on identical input yields the
identical output. -/
theorem check_returns_canonically_sorted (checkers : List CheckerEntry)
    (documentation : Documentation) (config : Config) (s : SuggestionSet)
    (hok : check checkers documentation config = .ok s) :
    List.Sorted entryLe s.entries ∧
    (∀ p ∈ s.entries, List.Sorted suggestionLe p.2) ∧
    check checkers documentation config = check checkers documentation config := by
  refine ⟨?_, ?_, rfl⟩ <;>
  · unfold check at hok
    cases hf : checkFold documentation config checkers SuggestionSet.new with
    | error e => rw [hf] at hok; exact absurd hok (by simp)
    | ok coll =>
      rw [hf] at hok
      have hs : s = coll.sort := (Except.ok.inj hok).symm
      subst hs
      first
      | exact List.sorted_insertionSort entryLe _
      | · intro p hp
          have hp' := (List.mem_insertionSort entryLe).mp hp
          obtain ⟨q, -, hq⟩ := List.mem_map.mp hp'
          rw [← hq]
          exact List.sorted_insertionSort suggestionLe _

/-- C9 witness: dispatch over the out-of-order checker output returns the
canonically re-sorted set, and the theorem's sortedness conclusions hold of
it. -/
theorem check_returns_canonically_sorted_witness :
    check [unsortedChecker] doc0 configAll = .ok sortedSet ∧
    List.Sorted entryLe sortedSet.entries ∧
    (∀ p ∈ sortedSet.entries, List.Sorted suggestionLe p.2) :=
  ⟨rfl,
    (check_returns_canonically_sorted [unsortedChecker] doc0 configAll sortedSet rfl).1,
    (check_returns_canonically_sorted [unsortedChecker] doc0 configAll sortedSet rfl).2.1⟩

/-- C6: refuting evaluation.  Inside one paragraph, a Strong construct
`0..9` with a nested Emphasis `2..7` is parsed.  The claim says the recorded
ranges used by the reflow are exactly one atomic range per top-level
construct (`[0..9]`), recorded at the end event when the stack depth returns
to one, with nested constructs not separately recorded.  The run shows
otherwise: end events never pop, so the `unbreakable_stack` — which is what
the paragraph flush passes to `store_suggestion`/`reflow_inner` — holds
*both* `0..9` and the nested `2..7`, while the separately recorded
`unbreakables` vector (third component) stays empty: at both end events the
un-popped stack has length 2, so even the top-level construct is never
recorded there (and that vector is never passed to the reflow at all). -/
theorem reflow_unbreakables_counterexample :
    reflowLoop chunkE origin0 80 ⟨0, [], [], []⟩
      [(.Start .Paragraph, ⟨0, 20⟩), (.Start .Strong, ⟨0, 9⟩),
       (.Start .Emphasis, ⟨2, 7⟩), (.End .Emphasis, ⟨2, 7⟩),
       (.End .Strong, ⟨0, 9⟩)] =
      .ok ⟨0, [⟨0, 9⟩, ⟨2, 7⟩], [], []⟩ := by
  rfl

/-- Over inline unbreakable events the loop pushes every start cover onto the
stack (ends never pop) and touches neither the cursor nor the accumulator. -/
theorem reflowLoop_inline_stack (chunk : CheckableChunk) (origin : ContentOrigin)
    (w : Nat) (evs : List (Event × Range)) :
    ∀ st : LoopState, (∀ ec ∈ evs, isInlineUnbreakable ec = true) →
      ∃ st', reflowLoop chunk origin w st evs = .ok st' ∧
        st'.unbreakable_stack = st.unbreakable_stack ++ evs.filterMap startCover ∧
        st'.paragraph = st.paragraph ∧ st'.acc = st.acc := by
  induction evs with
  | nil => exact fun st _ => ⟨st, rfl, by simp, rfl, rfl⟩
  | cons ec evs ih =>
    intro st hin
    obtain ⟨e, cover⟩ := ec
    have hhd : isInlineUnbreakable (e, cover) = true := hin _ (by simp)
    have htl : ∀ ec ∈ evs, isInlineUnbreakable ec = true :=
      fun ec h => hin ec (by simp [h])
    cases e with
    | Start t =>
      have ht : t.isUnbreakable = true := by
        simpa [isInlineUnbreakable] using hhd
      have hstep : reflowStep chunk origin w st (Event.Start t, cover) =
          .ok { st with unbreakable_stack := st.unbreakable_stack ++ [cover] } := by
        cases t <;> first
          | rfl
          | simp [Tag.isUnbreakable] at ht
      obtain ⟨st', h1, h2, h3, h4⟩ :=
        ih { st with unbreakable_stack := st.unbreakable_stack ++ [cover] } htl
      refine ⟨st', ?_, ?_, h3, h4⟩
      · simp only [reflowLoop, hstep, h1]
      · rw [h2]
        simp [startCover, ht]
    | End t =>
      have ht : t.isUnbreakable = true := by
        simpa [isInlineUnbreakable] using hhd
      by_cases h1len : st.unbreakable_stack.length = 1
      · have hstep : reflowStep chunk origin w st (Event.End t, cover) =
            .ok { st with unbreakables := st.unbreakables ++ [cover] } := by
          cases t <;> first
            | (simp [reflowStep, h1len]; done)
            | simp [Tag.isUnbreakable] at ht
        obtain ⟨st', h1, h2, h3, h4⟩ :=
          ih { st with unbreakables := st.unbreakables ++ [cover] } htl
        refine ⟨st', ?_, ?_, h3, h4⟩
        · simp only [reflowLoop, hstep, h1]
        · rw [h2]
          simp [startCover]
      · have hstep : reflowStep chunk origin w st (Event.End t, cover) = .ok st := by
          cases t <;> first
            | (simp [reflowStep, h1len]; done)
            | simp [Tag.isUnbreakable] at ht
        obtain ⟨st', h1, h2, h3, h4⟩ := ih st htl
        refine ⟨st', ?_, ?_, h3, h4⟩
        · simp only [reflowLoop, hstep, h1]
        · rw [h2]
          simp [startCover]
    | Text => simp [isInlineUnbreakable] at hhd
    | Code => simp [isInlineUnbreakable] at hhd
    | Html => simp [isInlineUnbreakable] at hhd
    | FootnoteReference => simp [isInlineUnbreakable] at hhd
    | SoftBreak => simp [isInlineUnbreakable] at hhd
    | HardBreak => simp [isInlineUnbreakable] at hhd
    | Rule => simp [isInlineUnbreakable] at hhd
    | TaskListMarker => simp [isInlineUnbreakable] at hhd

/-- A paragraph flush is congruent in `loopProj`: it reads only the stack and
the accumulator, never the recorded `unbreakables` vector. -/
theorem flushParagraph_proj_congr (chunk : CheckableChunk) (origin : ContentOrigin)
    (w : Nat) (st₁ st₂ : LoopState) (p e : Nat)
    (h2 : st₁.unbreakable_stack = st₂.unbreakable_stack) (h3 : st₁.acc = st₂.acc) :
    (flushParagraph chunk origin w st₁ p e).map loopProj =
      (flushParagraph chunk origin w st₂ p e).map loopProj := by
  unfold flushParagraph
  rw [h2]
  cases store_suggestion chunk origin p e st₂.unbreakable_stack w with
  | error pan => rfl
  | ok r =>
    cases r with
    | error q => simp [Except.map, loopProj, h3]
    | ok sp =>
      obtain ⟨sug, pp⟩ := sp
      simp [Except.map, loopProj, h3]

/-- One loop step is congruent in `loopProj`: states agreeing on cursor, stack
and accumulator step alike — the recorded `unbreakables` vector never
influences a step's outcome. -/
theorem reflowStep_proj_congr (chunk : CheckableChunk) (origin : ContentOrigin)
    (w : Nat) (st₁ st₂ : LoopState) (ec : Event × Range)
    (hp : loopProj st₁ = loopProj st₂) :
    (reflowStep chunk origin w st₁ ec).map loopProj =
      (reflowStep chunk origin w st₂ ec).map loopProj := by
  obtain ⟨h1, h2, h3⟩ : st₁.paragraph = st₂.paragraph ∧
      st₁.unbreakable_stack = st₂.unbreakable_stack ∧ st₁.acc = st₂.acc := by
    simpa [loopProj, Prod.ext_iff] using hp
  obtain ⟨e, cover⟩ := ec
  cases e with
  | Start t =>
    cases t with
    | Other =>
      show (flushParagraph chunk origin w st₁ st₁.paragraph st₁.paragraph).map loopProj =
        (flushParagraph chunk origin w st₂ st₂.paragraph st₂.paragraph).map loopProj
      rw [h1]
      exact flushParagraph_proj_congr chunk origin w st₁ st₂ _ _ h2 h3
    | Paragraph => simp [reflowStep, Except.map, loopProj, h2, h3]
    | Image => simp [reflowStep, Except.map, loopProj, h1, h2, h3]
    | Link => simp [reflowStep, Except.map, loopProj, h1, h2, h3]
    | Strong => simp [reflowStep, Except.map, loopProj, h1, h2, h3]
    | Emphasis => simp [reflowStep, Except.map, loopProj, h1, h2, h3]
    | Strikethrough => simp [reflowStep, Except.map, loopProj, h1, h2, h3]
  | End t =>
    cases t with
    | Paragraph =>
      show (flushParagraph chunk origin w st₁ st₁.paragraph cover.stop).map loopProj =
        (flushParagraph chunk origin w st₂ st₂.paragraph cover.stop).map loopProj
      rw [h1]
      exact flushParagraph_proj_congr chunk origin w st₁ st₂ _ _ h2 h3
    | Other => simp [reflowStep, Except.map, loopProj, h2, h3]
    | Image =>
      have e₁ : (reflowStep chunk origin w st₁ (Event.End Tag.Image, cover)).map loopProj =
          .ok (loopProj st₁) := by
        by_cases hl : st₁.unbreakable_stack.length = 1 <;>
          simp [reflowStep, hl, Except.map, loopProj]
      have e₂ : (reflowStep chunk origin w st₂ (Event.End Tag.Image, cover)).map loopProj =
          .ok (loopProj st₂) := by
        by_cases hl : st₂.unbreakable_stack.length = 1 <;>
          simp [reflowStep, hl, Except.map, loopProj]
      rw [e₁, e₂, hp]
    | Link =>
      have e₁ : (reflowStep chunk origin w st₁ (Event.End Tag.Link, cover)).map loopProj =
          .ok (loopProj st₁) := by
        by_cases hl : st₁.unbreakable_stack.length = 1 <;>
          simp [reflowStep, hl, Except.map, loopProj]
      have e₂ : (reflowStep chunk origin w st₂ (Event.End Tag.Link, cover)).map loopProj =
          .ok (loopProj st₂) := by
        by_cases hl : st₂.unbreakable_stack.length = 1 <;>
          simp [reflowStep, hl, Except.map, loopProj]
      rw [e₁, e₂, hp]
    | Strong =>
      have e₁ : (reflowStep chunk origin w st₁ (Event.End Tag.Strong, cover)).map loopProj =
          .ok (loopProj st₁) := by
        by_cases hl : st₁.unbreakable_stack.length = 1 <;>
          simp [reflowStep, hl, Except.map, loopProj]
      have e₂ : (reflowStep chunk origin w st₂ (Event.End Tag.Strong, cover)).map loopProj =
          .ok (loopProj st₂) := by
        by_cases hl : st₂.unbreakable_stack.length = 1 <;>
          simp [reflowStep, hl, Except.map, loopProj]
      rw [e₁, e₂, hp]
    | Emphasis =>
      have e₁ : (reflowStep chunk origin w st₁ (Event.End Tag.Emphasis, cover)).map loopProj =
          .ok (loopProj st₁) := by
        by_cases hl : st₁.unbreakable_stack.length = 1 <;>
          simp [reflowStep, hl, Except.map, loopProj]
      have e₂ : (reflowStep chunk origin w st₂ (Event.End Tag.Emphasis, cover)).map loopProj =
          .ok (loopProj st₂) := by
        by_cases hl : st₂.unbreakable_stack.length = 1 <;>
          simp [reflowStep, hl, Except.map, loopProj]
      rw [e₁, e₂, hp]
    | Strikethrough =>
      have e₁ : (reflowStep chunk origin w st₁
          (Event.End Tag.Strikethrough, cover)).map loopProj = .ok (loopProj st₁) := by
        by_cases hl : st₁.unbreakable_stack.length = 1 <;>
          simp [reflowStep, hl, Except.map, loopProj]
      have e₂ : (reflowStep chunk origin w st₂
          (Event.End Tag.Strikethrough, cover)).map loopProj = .ok (loopProj st₂) := by
        by_cases hl : st₂.unbreakable_stack.length = 1 <;>
          simp [reflowStep, hl, Except.map, loopProj]
      rw [e₁, e₂, hp]
  | HardBreak =>
    show (flushParagraph chunk origin w st₁ st₁.paragraph cover.stop).map loopProj =
      (flushParagraph chunk origin w st₂ st₂.paragraph cover.stop).map loopProj
    rw [h1]
    exact flushParagraph_proj_congr chunk origin w st₁ st₂ _ _ h2 h3
  | Text => simp [reflowStep, Except.map, hp]
  | Code => simp [reflowStep, Except.map, hp]
  | Html => simp [reflowStep, Except.map, hp]
  | FootnoteReference => simp [reflowStep, Except.map, hp]
  | SoftBreak => simp [reflowStep, Except.map, hp]
  | Rule => simp [reflowStep, Except.map, hp]
  | TaskListMarker => simp [reflowStep, Except.map, hp]

/-- The whole loop is congruent in `loopProj`: the produced suggestions (and
every state component except the dead `unbreakables` vector) are independent
of the recorded `unbreakables` vector. -/
theorem reflowLoop_proj_congr (chunk : CheckableChunk) (origin : ContentOrigin)
    (w : Nat) (evs : List (Event × Range)) :
    ∀ st₁ st₂ : LoopState, loopProj st₁ = loopProj st₂ →
      (reflowLoop chunk origin w st₁ evs).map loopProj =
        (reflowLoop chunk origin w st₂ evs).map loopProj := by
  induction evs with
  | nil =>
    intro st₁ st₂ hp
    simp [reflowLoop, Except.map, hp]
  | cons ec evs ih =>
    intro st₁ st₂ hp
    have hstep := reflowStep_proj_congr chunk origin w st₁ st₂ ec hp
    cases hr₁ : reflowStep chunk origin w st₁ ec with
    | error pan₁ =>
      cases hr₂ : reflowStep chunk origin w st₂ ec with
      | error pan₂ =>
        rw [hr₁, hr₂] at hstep
        have hpan : pan₁ = pan₂ := by simpa [Except.map] using hstep
        subst hpan
        simp [reflowLoop, hr₁, hr₂]
      | ok s₂ =>
        rw [hr₁, hr₂] at hstep
        simp [Except.map] at hstep
    | ok s₁ =>
      cases hr₂ : reflowStep chunk origin w st₂ ec with
      | error pan₂ =>
        rw [hr₁, hr₂] at hstep
        simp [Except.map] at hstep
      | ok s₂ =>
        rw [hr₁, hr₂] at hstep
        have hps : loopProj s₁ = loopProj s₂ := by simpa [Except.map] using hstep
        simpa [reflowLoop, hr₁, hr₂] using ih s₁ s₂ hps

/-- C6 (amended): the unbreakable ranges actually used by the reflow at a
flush are the covers of *all* unbreakable start events since the last flush —
one per construct, nested ones included — accumulated on `unbreakable_stack`,
which end events never pop, while the paragraph cursor and the suggestion
accumulator stay untouched by inline events; the separately recorded
`unbreakables` vector (filled only at an end event arriving while the stack
length is exactly one, i.e. at most for a first nesting-free construct) never
influences the loop's outcome. -/
theorem reflow_unbreakables_amended :
    (∀ (chunk : CheckableChunk) (origin : ContentOrigin) (w : Nat)
        (evs : List (Event × Range)) (st : LoopState),
      (∀ ec ∈ evs, isInlineUnbreakable ec = true) →
      ∃ st', reflowLoop chunk origin w st evs = .ok st' ∧
        st'.unbreakable_stack = st.unbreakable_stack ++ evs.filterMap startCover ∧
        st'.paragraph = st.paragraph ∧ st'.acc = st.acc) ∧
    (∀ (chunk : CheckableChunk) (origin : ContentOrigin) (w : Nat)
        (evs : List (Event × Range)) (st₁ st₂ : LoopState),
      loopProj st₁ = loopProj st₂ →
      (reflowLoop chunk origin w st₁ evs).map loopProj =
        (reflowLoop chunk origin w st₂ evs).map loopProj) :=
  ⟨fun chunk origin w evs st h => reflowLoop_inline_stack chunk origin w evs st h,
   fun chunk origin w evs st₁ st₂ hp => reflowLoop_proj_congr chunk origin w evs st₁ st₂ hp⟩

/-- C6 witness: both parts of the amended theorem applied at concrete inputs,
hypotheses discharged by evaluation. -/
theorem reflow_unbreakables_amended_witness :
    (∃ st', reflowLoop chunkE origin0 80 ⟨0, [], [], []⟩ evsW = .ok st' ∧
        st'.unbreakable_stack =
          (⟨0, [], [], []⟩ : LoopState).unbreakable_stack ++ evsW.filterMap startCover ∧
        st'.paragraph = (⟨0, [], [], []⟩ : LoopState).paragraph ∧
        st'.acc = (⟨0, [], [], []⟩ : LoopState).acc) ∧
    (reflowLoop chunkE origin0 80 ⟨3, [⟨1, 2⟩], [⟨5, 6⟩], []⟩ evsW).map loopProj =
      (reflowLoop chunkE origin0 80 ⟨3, [⟨1, 2⟩], [], []⟩ evsW).map loopProj :=
  ⟨reflow_unbreakables_amended.1 chunkE origin0 80 evsW ⟨0, [], [], []⟩ (by decide),
   reflow_unbreakables_amended.2 chunkE origin0 80 evsW
     ⟨3, [⟨1, 2⟩], [⟨5, 6⟩], []⟩ ⟨3, [⟨1, 2⟩], [], []⟩ rfl⟩

theorem reflowFold_fst (v : CommentVariant) (L : Nat) :
    ∀ (gl lines : List (List Char)) (inds : List Nat) (acc : List Char) (ap : Bool),
      (reflowFold v L gl lines inds acc ap).1 = acc ++ blobAux v L gl inds := by
  intro gl
  induction gl with
  | nil =>
    intro lines inds acc ap
    simp [reflowFold, blobAux]
  | cons l ls ih =>
    intro lines inds acc ap
    simp only [reflowFold, blobAux]
    rw [ih]
    cases inds.head? <;> simp [List.append_assoc]

theorem blobAux_eq_decorate (v : CommentVariant) (lastInd : Nat) :
    ∀ (gl : List (List Char)) (inds : List Nat),
      blobAux v (lastInd - v.prefix_len) gl inds =
        (decorateRest v lastInd inds gl).foldr (fun l r => l ++ '\n' :: r) [] := by
  intro gl
  induction gl with
  | nil =>
    intro inds
    simp [blobAux, decorateRest]
  | cons l ls ih =>
    intro inds
    simp only [blobAux, decorateRest, List.foldr_cons]
    rw [ih]
    cases h : inds.head? with
    | none => simp [h, Option.getD, List.append_assoc]
    | some i => simp [h, Option.getD, List.append_assoc]

theorem blob_append_nl :
    ∀ (ds : List (List Char)) (x : List Char),
      (x ++ ['\n']) ++ ds.foldr (fun l r => l ++ '\n' :: r) [] =
        joinNl (x :: ds) ++ ['\n'] := by
  intro ds
  induction ds with
  | nil =>
    intro x
    simp [joinNl]
  | cons d ds ih =>
    intro x
    have hj : joinNl (x :: d :: ds) = x ++ '\n' :: joinNl (d :: ds) := rfl
    rw [hj, List.foldr_cons]
    calc (x ++ ['\n']) ++ (d ++ '\n' :: ds.foldr (fun l r => l ++ '\n' :: r) [])
        = x ++ '\n' :: ((d ++ ['\n']) ++ ds.foldr (fun l r => l ++ '\n' :: r) []) := by
          simp [List.append_assoc]
      _ = x ++ '\n' :: (joinNl (d :: ds) ++ ['\n']) := by rw [ih d]
      _ = (x ++ '\n' :: joinNl (d :: ds)) ++ ['\n'] := by simp [List.append_assoc]

theorem reflowFinish_some (v : CommentVariant) (fd : List Char × Bool)
    (J out : List Char) (h1 : fd.1 = J ++ ['\n'])
    (hok : reflowFinish v fd = .ok (some out)) :
    out = (dropSuffix? J v.suffix_string).getD J := by
  unfold reflowFinish at hok
  rw [h1, dropSuffix?_append] at hok
  cases hb : fd.2 with
  | false =>
    rw [hb] at hok
    simp at hok
  | true =>
    rw [hb] at hok
    simp only [if_pos] at hok
    cases hd : dropSuffix? J v.suffix_string with
    | none =>
      rw [hd] at hok
      simpa [Option.getD] using (Option.some.inj (Except.ok.inj hok)).symm
    | some c2 =>
      rw [hd] at hok
      simpa [Option.getD] using (Option.some.inj (Except.ok.inj hok)).symm

/-- C7: whenever `reflow_inner` returns a replacement, that replacement is
exactly the claim's assembly of the produced lines — first line bare except
for the appended suffix, each subsequent line `(indentation − prefix length,
clamped)`-indented, prefixed and suffixed (the last indentation reused once
the list is exhausted), lines joined by terminators with the trailing one
stripped, and the variant's closing suffix stripped from the very end. -/
theorem reflow_inner_assembles_decorated_lines (s : List Char) (range : Range)
    (ub : List Range) (indentations : List Nat) (maxw : Nat)
    (variant : CommentVariant) (out : List Char)
    (hok : reflow_inner s range ub indentations maxw variant = .ok (some out)) :
    out = assembleSpec
      (gluonLines (sliceChars s range) maxw indentations
        (ub.map (fun r => ⟨r.start - range.start, r.stop - range.start⟩)))
      indentations variant := by
  cases hl : indentations.getLast? with
  | none => simp [reflow_inner, hl] at hok
  | some li =>
    cases hg : gluonLines (sliceChars s range) maxw indentations
        (ub.map fun r => (⟨r.start - range.start, r.stop - range.start⟩ : Range)) with
    | nil => exact absurd hg (gluonLines_ne_nil _ _ _ _)
    | cons l0 rest =>
      have hre : reflow_inner s range ub indentations maxw variant =
          reflowFinish variant
            (reflowFold variant (li - variant.prefix_len) rest
              (rustLines (sliceChars s range)).tail indentations
              (l0 ++ variant.suffix_string ++ ['\n'])
              (decide (¬(rustLines (sliceChars s range)).head? = some l0))) := by
        simp only [reflow_inner, hl, hg]
      rw [hre] at hok
      have hfst : (reflowFold variant (li - variant.prefix_len) rest
          (rustLines (sliceChars s range)).tail indentations
          (l0 ++ variant.suffix_string ++ ['\n'])
          (decide (¬(rustLines (sliceChars s range)).head? = some l0))).1 =
          joinNl ((l0 ++ variant.suffix_string) ::
            decorateRest variant li indentations rest) ++ ['\n'] := by
        rw [reflowFold_fst, blobAux_eq_decorate]
        rw [show l0 ++ variant.suffix_string ++ ['\n'] =
          (l0 ++ variant.suffix_string) ++ ['\n'] by simp [List.append_assoc]]
        exact blob_append_nl _ _
      have hout := reflowFinish_some variant _
        (joinNl ((l0 ++ variant.suffix_string) ::
          decorateRest variant li indentations rest)) out hfst hok
      rw [hout]
      simp [assembleSpec, hl, Option.getD]

/-- C7 witness: the theorem applied at a concrete reflow, hypotheses
discharged by evaluation, with both sides evaluated. -/
theorem reflow_inner_assembles_decorated_lines_witness :
    reflow_inner "aa bb cc dd".data ⟨0, 11⟩ [] [4, 4] 5 CommentVariant.TripleSlash =
      .ok (some "aa bb\n/// cc dd".data) ∧
    "aa bb\n/// cc dd".data = assembleSpec
      (gluonLines (sliceChars "aa bb cc dd".data ⟨0, 11⟩) 5 [4, 4]
        (([] : List Range).map (fun r => ⟨r.start - 0, r.stop - 0⟩)))
      [4, 4] CommentVariant.TripleSlash :=
  ⟨rfl,
    reflow_inner_assembles_decorated_lines "aa bb cc dd".data ⟨0, 11⟩ [] [4, 4] 5
      CommentVariant.TripleSlash "aa bb\n/// cc dd".data rfl⟩
